import Mathlib

/-!
Verification of the Hebrew calendrical text parser and cross-calendar
consistency validator of the Eden-Karmiel proofreader repository.

The definitions below are a shallow embedding of
`src/utils/hebrewTextUtils.ts` and `src/utils/hebrewDateValidator.ts`.
JavaScript strings are modelled as Lean `String` (a list of Unicode
scalar values, matching the `for (const c of s)` code-point iteration
used by the source).  The external `@hebcal/core` calendar converter is
modelled as an explicit function parameter returning `Option` (its
`try/catch`-guarded calls return `null` on failure).
-/

/-- Characters removed by the numeral-cleaning regex of
`hebrewNumeralToInt`: ASCII apostrophe (U+0027), ASCII double quote
(U+0022), Hebrew gershayim (U+05F4), Hebrew geresh (U+05F3) and the
backtick (U+0060).  The source lists the ASCII quotes twice; the set is
what matters. -/
def isQuoteMark (c : Char) : Bool :=
  c = Char.ofNat 39 ∨ c = Char.ofNat 34 ∨ c = Char.ofNat 0x5F4 ∨
  c = Char.ofNat 0x5F3 ∨ c = Char.ofNat 96

/-- The JavaScript `\s` character class (also the set trimmed by
`String.prototype.trim`): ASCII whitespace, NBSP, the Unicode space
separators, line/paragraph separators and the BOM. -/
def jsWhitespace (c : Char) : Bool :=
  c = Char.ofNat 9 ∨ c = Char.ofNat 10 ∨ c = Char.ofNat 11 ∨
  c = Char.ofNat 12 ∨ c = Char.ofNat 13 ∨ c = Char.ofNat 32 ∨
  c = Char.ofNat 0xa0 ∨ c = Char.ofNat 0x1680 ∨
  (Char.ofNat 0x2000 ≤ c ∧ c ≤ Char.ofNat 0x200a) ∨
  c = Char.ofNat 0x2028 ∨ c = Char.ofNat 0x2029 ∨ c = Char.ofNat 0x202f ∨
  c = Char.ofNat 0x205f ∨ c = Char.ofNat 0x3000 ∨ c = Char.ofNat 0xfeff

/-- The ASCII apostrophe character, built from its code so the source
file never contains a bare quote character. -/
def apos : Char := Char.ofNat 39

/-- The ASCII double-quote character. -/
def dquo : Char := Char.ofNat 34

/-- Substring search: JavaScript `hay.includes(needle)` on code-point
lists (true at the empty needle, as in JavaScript). -/
def subSearch (needle : List Char) : List Char → Bool
  | [] => needle.isEmpty
  | c :: rest => needle.isPrefixOf (c :: rest) || subSearch needle rest

/-- JavaScript `hay.includes(needle)` on strings. -/
def jsIncludes (hay needle : String) : Bool :=
  subSearch needle.data hay.data

/-- First-match association-list lookup, modelling JavaScript property
access `table[key]` on an object literal with distinct keys. -/
def tableGet (key : String) : List (String × Nat) → Option Nat
  | [] => none
  | (name, num) :: rest => if name = key then some num else tableGet key rest

/-- Accumulator loop of `splitWs`: `cur` holds the characters of the
current (partial) word in reverse. -/
def splitWsAux : List Char → List Char → List (List Char)
  | [], cur => if cur = [] then [] else [cur.reverse]
  | c :: rest, cur =>
    if jsWhitespace c then
      if cur = [] then splitWsAux rest []
      else cur.reverse :: splitWsAux rest []
    else splitWsAux rest (c :: cur)

/-- Splitting on runs of JavaScript whitespace, modelling
`s.split(/\s+/).filter(Boolean)`: the maximal non-whitespace runs of
the string, in order. -/
def splitWs (l : List Char) : List (List Char) :=
  splitWsAux l []

/-- Tokens of a phrase: the whitespace-separated words, as strings. -/
def tokensOf (s : String) : List String :=
  (splitWs s.data).map String.mk

/-- JavaScript `String.prototype.trim` (trims the `\s` set from both
ends). -/
def jsTrim (l : List Char) : List Char :=
  ((l.dropWhile jsWhitespace).reverse.dropWhile jsWhitespace).reverse

/-- JavaScript `String.prototype.toLowerCase`, restricted to its ASCII
action (simple lowercasing; the identity on the Hebrew block, which is
all the month table contains). -/
def jsToLower (s : String) : String :=
  String.mk (s.data.map Char.toLower)

/-- First-match association-list lookup on character keys, modelling
JavaScript property access on the per-letter value object. -/
def charTableGet (key : Char) : List (Char × Nat) → Option Nat
  | [] => none
  | (a, v) :: rest => if a = key then some v else charTableGet key rest

/-- Entries of the `HEBREW_LETTER_VALUES` object of
`hebrewTextUtils.ts`: standard gematria values, with final forms valued
as their base letters. -/
def HEBREW_LETTER_ENTRIES : List (Char × Nat) :=
  [('א', 1), ('ב', 2), ('ג', 3), ('ד', 4), ('ה', 5),
   ('ו', 6), ('ז', 7), ('ח', 8), ('ט', 9), ('י', 10),
   ('כ', 20), ('ך', 20), ('ל', 30), ('מ', 40), ('ם', 40),
   ('נ', 50), ('ן', 50), ('ס', 60), ('ע', 70), ('פ', 80),
   ('ף', 80), ('צ', 90), ('ץ', 90), ('ק', 100), ('ר', 200),
   ('ש', 300), ('ת', 400)]

/-- The `HEBREW_LETTER_VALUES` lookup of `hebrewTextUtils.ts`. -/
def HEBREW_LETTER_VALUES (c : Char) : Option Nat :=
  charTableGet c HEBREW_LETTER_ENTRIES

/-- Month-name variant written with an embedded ASCII double quote. -/
def memAleph : String := String.mk ['מ', 'נ', dquo, 'א']

/-- Month-name variant written with a trailing ASCII apostrophe. -/
def adarIVar : String := String.mk ['א', 'ד', 'ר', ' ', 'א', apos]

/-- Month-name variant written with a trailing ASCII apostrophe. -/
def adarIIVar : String := String.mk ['א', 'ד', 'ר', ' ', 'ב', apos]

/-- The `HEBREW_MONTHS` table of `hebrewTextUtils.ts`, as an
association list in the object-literal insertion order (the order
`Object.entries` iterates). -/
def HEBREW_MONTHS : List (String × Nat) :=
  [("ניסן", 1),
   ("אייר", 2),
   ("סיון", 3), ("סיוון", 3),
   ("תמוז", 4),
   ("אב", 5), ("מנחם אב", 5), (memAleph, 5),
   ("אלול", 6),
   ("תשרי", 7),
   ("חשון", 8), ("חשוון", 8), ("מרחשון", 8), ("מר חשון", 8),
   ("כסלו", 9), ("כסליו", 9),
   ("טבת", 10),
   ("שבט", 11),
   ("אדר", 12), (adarIVar, 12), ("אדר א", 12), ("אדר ראשון", 12),
   (adarIIVar, 13), ("אדר ב", 13), ("אדר שני", 13)]

/-- The cleaning step of `hebrewNumeralToInt`: remove quote-like marks,
then all whitespace (the subsequent `.trim()` is then a no-op). -/
def cleanNumeral (l : List Char) : List Char :=
  l.filter (fun c => ¬ (isQuoteMark c ∨ jsWhitespace c))

/-- The accumulation loop of `hebrewNumeralToInt`: running total and
the has-valid-letter flag. -/
def sumStep (acc : Nat × Bool) (c : Char) : Nat × Bool :=
  match HEBREW_LETTER_VALUES c with
  | some v => (acc.1 + v, true)
  | none => acc

/-- Translation of `hebrewNumeralToInt`: clean the token, sum the
recognized letter values, return `none` when the input or the cleaned
token is empty or no letter was recognized. -/
def hebrewNumeralToInt (hebrewNum : String) : Option Nat :=
  if hebrewNum = "" then none
  else
    let cleaned := cleanNumeral hebrewNum.data
    if cleaned = [] then none
    else
      let r := cleaned.foldl sumStep (0, false)
      if r.2 then some r.1 else none

/-- Translation of `parseHebrewYear`: numeral decode, then add 5000 to
values below 1000. -/
def parseHebrewYear (yearStr : String) : Option Nat :=
  match hebrewNumeralToInt yearStr with
  | none => none
  | some numericValue =>
      if numericValue < 1000 then some (5000 + numericValue)
      else some numericValue

/-- Translation of `parseHebrewDay`. -/
def parseHebrewDay (dayStr : String) : Option Nat :=
  hebrewNumeralToInt dayStr

/-- The fallback loop of `parseHebrewMonth`: first table entry whose
name contains the token or is contained in it. -/
def monthScan (needle : String) : List (String × Nat) → Option Nat
  | [] => none
  | (name, num) :: rest =>
      if jsIncludes name needle || jsIncludes needle name then some num
      else monthScan needle rest

/-- Translation of `parseHebrewMonth`: reject the empty string, trim,
try the exact table lookup, then the bidirectional-containment fallback
on the lowercased token, scanning the table in insertion order. -/
def parseHebrewMonth (monthStr : String) : Option Nat :=
  if monthStr = "" then none
  else
    let cleaned := String.mk (jsTrim monthStr.data)
    match tableGet cleaned HEBREW_MONTHS with
    | some v => some v
    | none => monthScan (jsToLower cleaned) HEBREW_MONTHS

/-- Result record of `parseHebrewDate`. -/
structure ParsedHebrewDate where
  day : Option Nat
  month : Option Nat
  monthName : Option String
  year : Option Nat
deriving DecidableEq, Repr

/-- The all-`null` initial state of the `parseHebrewDate` loop. -/
def emptyParsed : ParsedHebrewDate := ⟨none, none, none, none⟩

/-- The skipped-token abbreviation written with an ASCII apostrophe. -/
def nifTok : String := String.mk ['נ', 'פ', apos]

/-- Skip test of the `parseHebrewDate` loop: the single-letter
prepositions and the abbreviated form of the word for deceased. -/
def isSkipTok (part : String) : Bool :=
  part = "ב" ∨ part = "ל" ∨ part = nifTok

/-- Loop body of `parseHebrewDate`: skip known prefixes, try the month
table, then classify a numeral-decoded value as year or day. -/
def parseStep (st : ParsedHebrewDate) (part : String) : ParsedHebrewDate :=
  if isSkipTok part then st
  else
    match parseHebrewMonth part with
    | some m => { st with month := some m, monthName := some part }
    | none =>
        match hebrewNumeralToInt part with
        | some numValue =>
            if numValue > 31 ∨ jsIncludes part "ת" ∨ jsIncludes part "ש" then
              let yv := if numValue < 1000 then 5000 + numValue else numValue
              { st with year := some yv }
            else if 1 ≤ numValue ∧ numValue ≤ 30 then
              { st with day := some numValue }
            else st
        | none => st

/-- Translation of `parseHebrewDate`: empty input short-circuits,
otherwise the whitespace tokens are folded through `parseStep`. -/
def parseHebrewDate (dateStr : String) : ParsedHebrewDate :=
  if dateStr = "" then emptyParsed
  else (tokensOf dateStr).foldl parseStep emptyParsed

/-- ASCII word character of the JavaScript `\b` boundary assertion. -/
def isWordChar (c : Char) : Bool :=
  ('0' ≤ c ∧ c ≤ '9') ∨ ('a' ≤ c ∧ c ≤ 'z') ∨ ('A' ≤ c ∧ c ≤ 'Z') ∨ c = '_'

/-- ASCII digit test. -/
def isDig (c : Char) : Bool := '0' ≤ c ∧ c ≤ '9'

/-- Numeric value of the four digit characters of a year match. -/
def yearVal (c1 c2 c3 c4 : Char) : Nat :=
  1000 * (c1.toNat - 48) + 100 * (c2.toNat - 48) +
    10 * (c3.toNat - 48) + (c4.toNat - 48)

/-- Boundary test on the (optional) character preceding or following a
match: the `\b` assertion next to a digit holds exactly when that
neighbour is absent or not a word character. -/
def okBoundary : Option Char → Bool
  | none => true
  | some c => ¬ isWordChar c

/-- Global scan of `text.match(/\b(19\d{2}|20\d{2})\b/g)`: left-to-right,
non-overlapping; a successful match consumes its four digits.  `prev`
is the character just before the current position, for the left
boundary test. -/
def scanYears (prev : Option Char) : List Char → List Nat
  | c1 :: c2 :: c3 :: c4 :: rest =>
      if okBoundary prev ∧
         ((c1 = '1' ∧ c2 = '9') ∨ (c1 = '2' ∧ c2 = '0')) ∧
         isDig c3 ∧ isDig c4 ∧ okBoundary rest.head? then
        yearVal c1 c2 c3 c4 :: scanYears (some c4) rest
      else scanYears (some c1) (c2 :: c3 :: c4 :: rest)
  | _ => []

/-- Result record of `extractGregorianYears`. -/
structure GregorianYears where
  birthYear : Option Nat
  deathYear : Option Nat
deriving DecidableEq, Repr

/-- Translation of `extractGregorianYears`: collect the year matches,
sort ascending, a single match is a death year, two or more yield the
first as birth year and the last as death year. -/
def extractGregorianYears (text : String) : GregorianYears :=
  let ms := scanYears none text.data
  match ms with
  | [] => ⟨none, none⟩
  | _ :: _ =>
      let years := List.insertionSort (· ≤ ·) ms
      if years.length = 1 then ⟨none, years.head?⟩
      else ⟨years.head?, years.getLast?⟩

/-- JavaScript `Date` as observed by the validator: `getFullYear`,
`getMonth` (0-based) and `getDate`. -/
structure JsDate where
  fullYear : Int
  monthIdx : Nat
  dayOfMonth : Nat
deriving DecidableEq, Repr

/-- Parts returned by `gregorianToHebrew` (an `HDate` read back). -/
structure HebrewParts where
  day : Nat
  month : Nat
  monthName : String
  year : Nat
deriving DecidableEq, Repr

/-- The `HebrewDateInfo` record of the proofreader types. -/
structure HebrewDateInfo where
  day : Option Nat
  month : Option String
  monthNumeric : Option Nat
  year : Option Nat
  rawText : String
deriving DecidableEq, Repr

/-- The `GregorianDateInfo` record of the proofreader types (`day` and
`month` are declared optional and never set by the validator). -/
structure GregorianDateInfo where
  day : Option Nat
  month : Option Nat
  year : Option Nat
  rawText : String
deriving DecidableEq, Repr

/-- The `DateValidationResult` record of the proofreader types; the two
date fields are declared nullable. -/
structure DateValidationResult where
  hebrewDate : Option HebrewDateInfo
  gregorianDate : Option GregorianDateInfo
  isConsistent : Bool
  expectedHebrewDate : Option String
  expectedGregorianDate : Option String
  discrepancyExplanation : Option String
deriving DecidableEq, Repr

/-- The `MONTH_TO_HEBCAL` map: our month numbers 1..13 to the hebcal
month constants, which are numerically 1..13 in the same order (NISAN=1
… ADAR_II=13), so the map is the identity on its domain; every constant
is nonzero, so JavaScript truthiness of the looked-up value coincides
with key membership. -/
def MONTH_TO_HEBCAL (m : Nat) : Option Nat :=
  if 1 ≤ m ∧ m ≤ 13 then some m else none

/-- Abstract hebcal conversion `new HDate(d, m, y).greg()` wrapped in
the source's `try/catch`: a failure is `none`. -/
def HDateToGreg := Nat → Nat → Nat → Option JsDate

/-- Abstract hebcal conversion `new HDate(date)` read back as parts,
wrapped in the source's `try/catch`. -/
def GregToHDate := JsDate → Option HebrewParts

/-- Translation of `hebrewToGregorian`: reject months outside the
`MONTH_TO_HEBCAL` table, then delegate to the hebcal collaborator. -/
def hebrewToGregorian (hg : HDateToGreg) (day month year : Nat) : Option JsDate :=
  match MONTH_TO_HEBCAL month with
  | none => none
  | some hebcalMonth => hg day hebcalMonth year

/-- JavaScript truthiness of a nullable number (`null`/`undefined` and
`0` are falsy). -/
def optTruthy : Option Nat → Bool
  | none => false
  | some n => n ≠ 0

/-- JavaScript `x || d` on a nullable number with default `d`. -/
def jsOrNat (x : Option Nat) (d : Nat) : Nat :=
  match x with
  | none => d
  | some n => if n = 0 then d else n

/-- Explanation text of the missing-Gregorian-year branch. -/
def msgNoGreg : String := "לא נמצאה שנה גרגוריאנית להשוואה"

/-- Explanation text of the missing-Hebrew-year branch. -/
def msgNoHeb : String := "לא נמצאה שנה עברית להשוואה"

/-- Explanation text of the failed-conversion branch. -/
def msgNoConvert : String := "לא ניתן להמיר את התאריך העברי"

/-- The mismatch explanation template: the Hebrew date string, the year
it converts to, and the recorded Gregorian year. -/
def mismatchMsg (hebrewDateStr : String) (convertedYear : Int) (deathYear : Nat) : String :=
  "התאריך העברי " ++ hebrewDateStr ++ " מתאים לשנה " ++ toString convertedYear
    ++ " ולא ל-" ++ toString deathYear

/-- Translation of `getHebrewYearSuffix`: a double quote followed by the
year's last two decimal digits. -/
def getHebrewYearSuffix (year : Nat) : String :=
  String.singleton dquo ++ toString (year % 100)

/-- Display prefix of the expected Hebrew year (the letters heh,
apostrophe, tav, shin of the source template). -/
def hebYearStem : String := String.mk ['ה', apos, 'ת', 'ש']

/-- Formatted `expectedGregorianDate`: day/month/year with the 1-based
month. -/
def fmtGregDate (d : JsDate) : String :=
  toString d.dayOfMonth ++ "/" ++ toString (d.monthIdx + 1) ++ "/" ++ toString d.fullYear

/-- Translation of `validateDateConsistency`, parametrized by the two
hebcal collaborator functions.  Every branch of the source returns a
fully built record; exceptions cannot escape (the only throwing calls
are inside the collaborators' `try/catch`). -/
def validateDateConsistency (hg : HDateToGreg) (gh : GregToHDate)
    (hebrewDateStr gregorianYearStr : String) : DateValidationResult :=
  let parsedHebrew := parseHebrewDate hebrewDateStr
  let hebrewDateInfo : HebrewDateInfo :=
    { day := parsedHebrew.day
      month := parsedHebrew.monthName
      monthNumeric := parsedHebrew.month
      year := parsedHebrew.year
      rawText := hebrewDateStr }
  let deathYear := (extractGregorianYears gregorianYearStr).deathYear
  let gregorianDateInfo : GregorianDateInfo :=
    { day := none, month := none, year := deathYear, rawText := gregorianYearStr }
  if ¬ optTruthy parsedHebrew.year ∨ ¬ optTruthy deathYear then
    { hebrewDate := some hebrewDateInfo
      gregorianDate := some gregorianDateInfo
      isConsistent := true
      expectedHebrewDate := none
      expectedGregorianDate := none
      discrepancyExplanation :=
        if optTruthy parsedHebrew.year ∧ ¬ optTruthy deathYear then some msgNoGreg
        else if ¬ optTruthy parsedHebrew.year ∧ optTruthy deathYear then some msgNoHeb
        else none }
  else
    let dayToUse := jsOrNat parsedHebrew.day 15
    let monthToUse := jsOrNat parsedHebrew.month 7
    let hYear := parsedHebrew.year.getD 0
    let dYear := deathYear.getD 0
    match hebrewToGregorian hg dayToUse monthToUse hYear with
    | none =>
        { hebrewDate := some hebrewDateInfo
          gregorianDate := some gregorianDateInfo
          isConsistent := true
          expectedHebrewDate := none
          expectedGregorianDate := none
          discrepancyExplanation := some msgNoConvert }
    | some convertedDate =>
        let convertedYear := convertedDate.fullYear
        let yearDiff := (convertedYear - (dYear : Int)).natAbs
        if yearDiff ≤ 1 then
          { hebrewDate := some hebrewDateInfo
            gregorianDate := some gregorianDateInfo
            isConsistent := true
            expectedHebrewDate := none
            expectedGregorianDate := none
            discrepancyExplanation := none }
        else
          let expectedHebrew := gh ⟨(dYear : Int), 0, 1⟩
          { hebrewDate := some hebrewDateInfo
            gregorianDate := some gregorianDateInfo
            isConsistent := false
            expectedHebrewDate :=
              match expectedHebrew with
              | some parts => some (hebYearStem ++ getHebrewYearSuffix parts.year)
              | none => none
            expectedGregorianDate := some (fmtGregDate convertedDate)
            discrepancyExplanation :=
              some (mismatchMsg hebrewDateStr convertedYear dYear) }

/-- Memorial entry shape consumed by `validateAllDates` (the fields the
function reads). -/
structure MemorialInput where
  hebrewDate : Option String
  gregorianYears : Option String
  name : Option String
deriving DecidableEq, Repr

/-- JavaScript truthiness of a nullable string (`undefined` and the
empty string are falsy). -/
def strTruthy : Option String → Bool
  | none => false
  | some s => s ≠ ""

/-- JavaScript `m.hebrewDate || m.gregorianYears` as the filter of
`validateAllDates`: keep an entry when either field is a nonempty
string. -/
def hasDateText (m : MemorialInput) : Bool :=
  strTruthy m.hebrewDate || strTruthy m.gregorianYears

/-- JavaScript `x || ''` on a nullable string. -/
def orBlank : Option String → String
  | none => ""
  | some s => s

/-- Translation of `validateAllDates`: filter out entries with no date
text, then validate each surviving entry in order. -/
def validateAllDates (hg : HDateToGreg) (gh : GregToHDate)
    (memorials : List MemorialInput) : List DateValidationResult :=
  (memorials.filter hasDateText).map fun memorial =>
    validateDateConsistency hg gh (orBlank memorial.hebrewDate)
      (orBlank memorial.gregorianYears)

/-- Day-or-year token of the fourth testable-property example: yod,
gershayim-as-ASCII-quote, aleph (the numeral eleven). -/
def yodQuoteAleph : String := String.mk ['י', dquo, 'א']

/-- Numeral token kaf, quote, gimel (the numeral twenty-three). -/
def kafQuoteGimel : String := String.mk ['כ', dquo, 'ג']

/-- Token classification step as the specification words it: month
table first; a decoded value is a year when it exceeds 31 or the token
contains the letter tav or shin (years below 1000 normalized by adding
5000), and a day when it lies in 1..30 and was not claimed as a year. -/
def claimClassify (st : ParsedHebrewDate) (part : String) : ParsedHebrewDate :=
  match parseHebrewMonth part with
  | some m => { st with month := some m, monthName := some part }
  | none =>
      match hebrewNumeralToInt part with
      | some n =>
          if n > 31 ∨ 'ת' ∈ part.data ∨ 'ש' ∈ part.data then
            { st with year := some (if n < 1000 then 5000 + n else n) }
          else if 1 ≤ n ∧ n ≤ 30 then { st with day := some n }
          else st
      | none => st

/-- Well-formedness invariant of parsed Hebrew dates: a recorded year
or month is positive and a recorded day lies in 1..30. -/
def ParsedOk (st : ParsedHebrewDate) : Prop :=
  (∀ y, st.year = some y → 0 < y) ∧
  (∀ d, st.day = some d → 1 ≤ d ∧ d ≤ 30) ∧
  (∀ m, st.month = some m → 0 < m)

/-- Tokens that the `parseHebrewDate` loop either skips or resolves as
a month. -/
def skipOrMonth (t : String) : Bool :=
  isSkipTok t || (parseHebrewMonth t).isSome

/-- Tokens that the `parseHebrewDate` loop resolves as a month (and
does not skip). -/
def monthTok (t : String) : Bool :=
  !isSkipTok t && (parseHebrewMonth t).isSome

/-- Hebcal collaborator that always fails (models conversions whose
`try/catch` caught an exception). -/
def hgNone : HDateToGreg := fun _ _ _ => none

/-- Reverse hebcal collaborator that always fails. -/
def ghNone : GregToHDate := fun _ => none

/-- Hebcal collaborator returning a fixed mid-2019 Gregorian date, used
to instantiate theorems about the comparison branch. -/
def hgMid2019 : HDateToGreg := fun _ _ _ => some ⟨2019, 5, 14⟩

theorem nat_le_sum_of_mem {l : List Nat} {a : Nat} (h : a ∈ l) : a ≤ l.sum := by
  induction l with
  | nil => cases h
  | cons b t ih =>
    rcases List.mem_cons.mp h with rfl | ht
    · simp [List.sum_cons]
    · calc a ≤ t.sum := ih ht
        _ ≤ b + t.sum := Nat.le_add_left _ _

theorem foldl_sumStep_eq (cs : List Char) :
    ∀ t b, cs.foldl sumStep (t, b) =
      (t + (cs.filterMap HEBREW_LETTER_VALUES).sum,
       b || !(cs.filterMap HEBREW_LETTER_VALUES).isEmpty) := by
  induction cs with
  | nil => intro t b; simp [List.filterMap]
  | cons c rest ih =>
    intro t b
    simp only [List.foldl_cons, List.filterMap_cons]
    cases h : HEBREW_LETTER_VALUES c with
    | none => simp [sumStep, h, ih t b]
    | some v =>
      simp [sumStep, h, ih (t + v) true, List.sum_cons, Nat.add_assoc]

theorem hebrewNumeralToInt_eq (s : String) :
    hebrewNumeralToInt s =
      (if ((cleanNumeral s.data).filterMap HEBREW_LETTER_VALUES) = [] then none
       else some ((cleanNumeral s.data).filterMap HEBREW_LETTER_VALUES).sum) := by
  unfold hebrewNumeralToInt
  by_cases hs : s = ""
  · subst hs
    simp [cleanNumeral, List.filterMap]
  · rw [if_neg hs]
    by_cases hc : cleanNumeral s.data = []
    · simp [hc, List.filterMap]
    · rw [if_neg hc]
      have h := foldl_sumStep_eq (cleanNumeral s.data) 0 false
      simp only [h, Nat.zero_add, Bool.false_or]
      by_cases he : (cleanNumeral s.data).filterMap HEBREW_LETTER_VALUES = []
      · simp [he]
      · simp [he, List.isEmpty_iff]

theorem charTableGet_mem {k : Char} {v : Nat} :
    ∀ {l : List (Char × Nat)}, charTableGet k l = some v →
      ∃ p ∈ l, p.1 = k ∧ p.2 = v := by
  intro l
  induction l with
  | nil => intro h; exact Option.noConfusion h
  | cons p rest ih =>
    intro h
    obtain ⟨a, w⟩ := p
    by_cases ha : a = k
    · refine ⟨(a, w), List.mem_cons_self _ _, ha, ?_⟩
      rw [charTableGet, if_pos ha] at h
      exact Option.some.inj h
    · rw [charTableGet, if_neg ha] at h
      obtain ⟨q, hq, h1, h2⟩ := ih h
      exact ⟨q, List.mem_cons_of_mem _ hq, h1, h2⟩

theorem letterEntries_ok :
    ∀ p ∈ HEBREW_LETTER_ENTRIES,
      1 ≤ p.2 ∧ isQuoteMark p.1 = false ∧ jsWhitespace p.1 = false := by
  decide

theorem letterValue_pos {c : Char} {v : Nat} (h : HEBREW_LETTER_VALUES c = some v) :
    1 ≤ v := by
  obtain ⟨p, hp, h1, h2⟩ := charTableGet_mem h
  exact h2 ▸ (letterEntries_ok p hp).1

theorem letterValue_kept {c : Char} {v : Nat} (h : HEBREW_LETTER_VALUES c = some v) :
    isQuoteMark c = false ∧ jsWhitespace c = false := by
  obtain ⟨p, hp, h1, h2⟩ := charTableGet_mem h
  exact h1 ▸ (letterEntries_ok p hp).2

theorem decode_pos {s : String} {n : Nat} (h : hebrewNumeralToInt s = some n) :
    1 ≤ n := by
  rw [hebrewNumeralToInt_eq] at h
  set vals := (cleanNumeral s.data).filterMap HEBREW_LETTER_VALUES with hv
  by_cases he : vals = []
  · rw [if_pos he] at h; exact Option.noConfusion h
  · rw [if_neg he] at h
    obtain ⟨w, hw⟩ := List.exists_mem_of_ne_nil vals he
    obtain ⟨c, _, hc⟩ := List.mem_filterMap.mp hw
    calc 1 ≤ w := letterValue_pos hc
      _ ≤ vals.sum := nat_le_sum_of_mem hw
      _ = n := Option.some.inj h

theorem decode_ge_letter {s : String} {n : Nat} {c : Char} {v : Nat}
    (h : hebrewNumeralToInt s = some n) (hc : c ∈ s.data)
    (hv : HEBREW_LETTER_VALUES c = some v) : v ≤ n := by
  rw [hebrewNumeralToInt_eq] at h
  have hkeep := letterValue_kept hv
  have hmemclean : c ∈ cleanNumeral s.data := by
    refine List.mem_filter.mpr ⟨hc, ?_⟩
    simp [hkeep.1, hkeep.2]
  have hmem : v ∈ (cleanNumeral s.data).filterMap HEBREW_LETTER_VALUES :=
    List.mem_filterMap.mpr ⟨c, hmemclean, hv⟩
  by_cases he : (cleanNumeral s.data).filterMap HEBREW_LETTER_VALUES = []
  · rw [he] at hmem; cases hmem
  · rw [if_neg he] at h
    calc v ≤ _ := nat_le_sum_of_mem hmem
      _ = n := Option.some.inj h

theorem subSearch_single {ch : Char} :
    ∀ {l : List Char}, subSearch [ch] l = true ↔ ch ∈ l := by
  intro l
  induction l with
  | nil => simp [subSearch]
  | cons c rest ih =>
    simp only [subSearch, List.isPrefixOf, Bool.or_eq_true, List.mem_cons]
    constructor
    · rintro (h | h)
      · left
        have h2 := (Bool.and_eq_true _ _).mp h |>.1
        exact beq_iff_eq.mp h2
      · right; exact ih.mp h
    · rintro (rfl | h)
      · left; simp [List.isPrefixOf]
      · right; exact ih.mpr h

theorem jsIncludes_tav {s : String} : jsIncludes s "ת" = true ↔ 'ת' ∈ s.data := by
  unfold jsIncludes
  exact subSearch_single

theorem jsIncludes_shin {s : String} : jsIncludes s "ש" = true ↔ 'ש' ∈ s.data := by
  unfold jsIncludes
  exact subSearch_single

theorem tableGet_mem {k : String} {v : Nat} :
    ∀ {l : List (String × Nat)}, tableGet k l = some v →
      ∃ p ∈ l, p.1 = k ∧ p.2 = v := by
  intro l
  induction l with
  | nil => intro h; exact Option.noConfusion h
  | cons p rest ih =>
    intro h
    obtain ⟨a, w⟩ := p
    by_cases ha : a = k
    · refine ⟨(a, w), List.mem_cons_self _ _, ha, ?_⟩
      rw [tableGet, if_pos ha] at h
      exact Option.some.inj h
    · rw [tableGet, if_neg ha] at h
      obtain ⟨q, hq, h1, h2⟩ := ih h
      exact ⟨q, List.mem_cons_of_mem _ hq, h1, h2⟩

theorem monthScan_mem {nd : String} {v : Nat} :
    ∀ {l : List (String × Nat)}, monthScan nd l = some v → ∃ p ∈ l, p.2 = v := by
  intro l
  induction l with
  | nil => intro h; exact Option.noConfusion h
  | cons p rest ih =>
    intro h
    obtain ⟨a, w⟩ := p
    by_cases hc : (jsIncludes a nd || jsIncludes nd a) = true
    · rw [monthScan, if_pos hc] at h
      exact ⟨(a, w), List.mem_cons_self _ _, Option.some.inj h⟩
    · rw [monthScan, if_neg hc] at h
      obtain ⟨q, hq, h2⟩ := ih h
      exact ⟨q, List.mem_cons_of_mem _ hq, h2⟩

theorem monthScan_eq_find (nd : String) :
    ∀ l : List (String × Nat),
      monthScan nd l =
        (l.find? (fun p => jsIncludes p.1 nd || jsIncludes nd p.1)).map Prod.snd := by
  intro l
  induction l with
  | nil => rfl
  | cons p rest ih =>
    obtain ⟨a, w⟩ := p
    by_cases hc : (jsIncludes a nd || jsIncludes nd a) = true
    · rw [monthScan, if_pos hc, List.find?_cons]
      simp only [hc]
      rfl
    · rw [monthScan, if_neg hc, List.find?_cons]
      simp only [Bool.not_eq_true] at hc
      simp only [hc]
      exact ih

theorem monthValues_bounds : ∀ p ∈ HEBREW_MONTHS, 1 ≤ p.2 ∧ p.2 ≤ 13 := by
  decide

theorem parseHebrewMonth_bounds {t : String} {m : Nat}
    (h : parseHebrewMonth t = some m) : 1 ≤ m ∧ m ≤ 13 := by
  unfold parseHebrewMonth at h
  by_cases ht : t = ""
  · rw [if_pos ht] at h; exact Option.noConfusion h
  · rw [if_neg ht] at h
    dsimp only at h
    cases hg : tableGet (String.mk (jsTrim t.data)) HEBREW_MONTHS with
    | some v =>
        rw [hg] at h
        have hvm : v = m := by simpa using h
        obtain ⟨p, hp, _, h2⟩ := tableGet_mem hg
        have hb := monthValues_bounds p hp
        omega
    | none =>
        rw [hg] at h
        have hsc : monthScan (jsToLower (String.mk (jsTrim t.data))) HEBREW_MONTHS = some m := by
          simpa using h
        obtain ⟨p, hp, h2⟩ := monthScan_mem hsc
        have hb := monthValues_bounds p hp
        omega

theorem emptyParsed_ok : ParsedOk emptyParsed := by
  refine ⟨?_, ?_, ?_⟩ <;> (intro x h; exact Option.noConfusion h)

theorem parseStep_ok {st : ParsedHebrewDate} (hok : ParsedOk st) (part : String) :
    ParsedOk (parseStep st part) := by
  obtain ⟨hy, hd, hm⟩ := hok
  unfold parseStep
  split
  · exact ⟨hy, hd, hm⟩
  · split
    · rename_i m hmonth
      refine ⟨hy, hd, ?_⟩
      intro m' hm'
      have : m = m' := by simpa using hm'
      subst this
      exact (parseHebrewMonth_bounds hmonth).1
    · split
      · rename_i n hn
        split
        · refine ⟨?_, hd, hm⟩
          intro y hy'
          have : (if n < 1000 then 5000 + n else n) = y := by simpa using hy'
          subst this
          split <;> omega
        · split
          · rename_i hrange
            refine ⟨hy, ?_, hm⟩
            intro d hd'
            have : n = d := by simpa using hd'
            subst this
            exact hrange
          · exact ⟨hy, hd, hm⟩
      · exact ⟨hy, hd, hm⟩

theorem foldl_parseStep_ok :
    ∀ (l : List String) (st : ParsedHebrewDate), ParsedOk st →
      ParsedOk (l.foldl parseStep st) := by
  intro l
  induction l with
  | nil => intro st h; exact h
  | cons t rest ih =>
    intro st h
    exact ih _ (parseStep_ok h t)

theorem parseHebrewDate_ok (s : String) : ParsedOk (parseHebrewDate s) := by
  unfold parseHebrewDate
  split
  · exact emptyParsed_ok
  · exact foldl_parseStep_ok _ _ emptyParsed_ok

theorem isDig_bounds {c : Char} (h : isDig c = true) :
    48 ≤ c.toNat ∧ c.toNat ≤ 57 := by
  unfold isDig at h
  rw [decide_eq_true_eq] at h
  exact ⟨h.1, h.2⟩

theorem scanYears_bounds :
    ∀ (prev : Option Char) (l : List Char) (y : Nat),
      y ∈ scanYears prev l → 1900 ≤ y ∧ y ≤ 2099 := by
  intro prev l
  induction prev, l using scanYears.induct with
  | case1 prev c1 c2 c3 c4 rest hcond ih =>
    intro y hy
    rw [scanYears, if_pos hcond] at hy
    rcases List.mem_cons.mp hy with rfl | hy'
    · obtain ⟨hb, hdig, h3, h4, hnext⟩ := hcond
      have b3 := isDig_bounds h3
      have b4 := isDig_bounds h4
      have e1 : ('1' : Char).toNat = 49 := rfl
      have e9 : ('9' : Char).toNat = 57 := rfl
      have e2 : ('2' : Char).toNat = 50 := rfl
      have e0 : ('0' : Char).toNat = 48 := rfl
      rcases hdig with ⟨h1, h2⟩ | ⟨h1, h2⟩ <;>
        (unfold yearVal; rw [h1, h2]; simp only [e1, e9, e2, e0]; omega)
    · exact ih y hy'
  | case2 prev c1 c2 c3 c4 rest hcond ih =>
    intro y hy
    rw [scanYears, if_neg hcond] at hy
    exact ih y hy
  | case3 t prev h =>
    intro y hy
    rcases t with _ | ⟨a, _ | ⟨b, _ | ⟨c, _ | ⟨d, r⟩⟩⟩⟩
    · simp [scanYears] at hy
    · simp [scanYears] at hy
    · simp [scanYears] at hy
    · simp [scanYears] at hy
    · exact (h a b c d r rfl).elim

theorem head?_mem {l : List Nat} {a : Nat} (h : l.head? = some a) : a ∈ l := by
  cases l with
  | nil => exact Option.noConfusion h
  | cons b t =>
    have : b = a := by simpa using h
    subst this
    exact List.mem_cons_self _ _

theorem getLast?_mem {l : List Nat} {a : Nat} (h : l.getLast? = some a) : a ∈ l := by
  induction l with
  | nil => exact Option.noConfusion h
  | cons b t ih =>
    cases t with
    | nil =>
      have : b = a := by simpa using h
      subst this
      exact List.mem_cons_self _ _
    | cons c t' =>
      rw [List.getLast?_cons_cons] at h
      exact List.mem_cons_of_mem _ (ih h)

theorem sorted_head?_le {l : List Nat} (hs : l.Sorted (· ≤ ·)) {a : Nat}
    (ha : l.head? = some a) : ∀ x ∈ l, a ≤ x := by
  cases l with
  | nil => exact Option.noConfusion ha
  | cons b t =>
    have hba : b = a := by simpa using ha
    subst hba
    intro x hx
    rcases List.mem_cons.mp hx with rfl | hxt
    · exact Nat.le_refl _
    · exact (List.sorted_cons.mp hs).1 x hxt

theorem sorted_le_getLast? {l : List Nat} (hs : l.Sorted (· ≤ ·)) {a : Nat}
    (ha : l.getLast? = some a) : ∀ x ∈ l, x ≤ a := by
  induction l with
  | nil => exact Option.noConfusion ha
  | cons b t ih =>
    cases t with
    | nil =>
      have hba : b = a := by simpa using ha
      subst hba
      intro x hx
      rcases List.mem_cons.mp hx with rfl | hxt
      · exact Nat.le_refl _
      · cases hxt
    | cons c t' =>
      rw [List.getLast?_cons_cons] at ha
      intro x hx
      rcases List.mem_cons.mp hx with rfl | hxt
      · have hmem : a ∈ c :: t' := getLast?_mem ha
        exact Nat.le_trans ((List.sorted_cons.mp hs).1 a hmem) (Nat.le_refl _)
      · exact ih (List.sorted_cons.mp hs).2 ha x hxt

theorem extract_empty {text : String} (h : scanYears none text.data = []) :
    extractGregorianYears text = ⟨none, none⟩ := by
  unfold extractGregorianYears
  rw [h]

theorem extract_single {text : String} {y : Nat}
    (h : scanYears none text.data = [y]) :
    extractGregorianYears text = ⟨none, some y⟩ := by
  unfold extractGregorianYears
  rw [h]
  rfl

theorem extract_multi {text : String}
    (h2 : 2 ≤ (scanYears none text.data).length) :
    ∃ a b, extractGregorianYears text = ⟨some a, some b⟩ ∧
      a ∈ scanYears none text.data ∧ b ∈ scanYears none text.data ∧
      ∀ x ∈ scanYears none text.data, a ≤ x ∧ x ≤ b := by
  cases hc : scanYears none text.data with
  | nil => rw [hc] at h2; simp at h2
  | cons m rest =>
    rw [hc] at h2
    have hperm := List.perm_insertionSort (· ≤ ·) (m :: rest)
    have hsorted := List.sorted_insertionSort (· ≤ ·) (m :: rest)
    have hlen : (List.insertionSort (· ≤ ·) (m :: rest)).length = rest.length + 1 := by
      rw [hperm.length_eq]; rfl
    have hlen1 : ¬ ((List.insertionSort (· ≤ ·) (m :: rest)).length = 1) := by
      rw [hlen]
      simp only [List.length_cons] at h2
      omega
    cases hy : List.insertionSort (· ≤ ·) (m :: rest) with
    | nil => rw [hy] at hlen; simp at hlen
    | cons a t =>
      have hhead : (List.insertionSort (· ≤ ·) (m :: rest)).head? = some a := by
        rw [hy]; rfl
      have hne : (a :: t) ≠ ([] : List Nat) := by simp
      have hlast : (List.insertionSort (· ≤ ·) (m :: rest)).getLast? =
          some ((a :: t).getLast hne) := by
        rw [hy]
        exact List.getLast?_eq_getLast _ hne
      have hlastmem : (a :: t).getLast hne ∈ List.insertionSort (· ≤ ·) (m :: rest) := by
        rw [hy]
        exact List.getLast_mem hne
      refine ⟨a, (a :: t).getLast hne, ?_, ?_, ?_, ?_⟩
      · unfold extractGregorianYears
        rw [hc]
        show (if (List.insertionSort (· ≤ ·) (m :: rest)).length = 1 then _ else
          (⟨(List.insertionSort (· ≤ ·) (m :: rest)).head?,
            (List.insertionSort (· ≤ ·) (m :: rest)).getLast?⟩ : GregorianYears)) = _
        rw [if_neg hlen1, hhead, hlast]
      · rw [← hperm.mem_iff]
        exact head?_mem hhead
      · rw [← hperm.mem_iff]
        exact hlastmem
      · intro x hx
        have hxs : x ∈ List.insertionSort (· ≤ ·) (m :: rest) := hperm.mem_iff.mpr hx
        exact ⟨sorted_head?_le hsorted hhead x hxs, sorted_le_getLast? hsorted hlast x hxs⟩

theorem extract_death_bound {gs : String} {d : Nat}
    (h : (extractGregorianYears gs).deathYear = some d) : 1900 ≤ d ∧ d ≤ 2099 := by
  cases hc : scanYears none gs.data with
  | nil => rw [extract_empty hc] at h; exact Option.noConfusion h
  | cons m rest =>
    cases rest with
    | nil =>
      rw [extract_single hc] at h
      have : m = d := by simpa using h
      subst this
      exact scanYears_bounds none gs.data m (hc ▸ List.mem_cons_self _ _)
    | cons m2 rest2 =>
      have h2 : 2 ≤ (scanYears none gs.data).length := by rw [hc]; simp
      obtain ⟨a, b, heq, ha, hb, _⟩ := extract_multi h2
      rw [heq] at h
      have : b = d := by simpa using h
      subst this
      exact scanYears_bounds none gs.data b hb

theorem validate_insufficient (hg : HDateToGreg) (gh : GregToHDate) (hs gs : String)
    (h : ¬ optTruthy (parseHebrewDate hs).year ∨
         ¬ optTruthy (extractGregorianYears gs).deathYear) :
    validateDateConsistency hg gh hs gs =
      { hebrewDate := some ⟨(parseHebrewDate hs).day, (parseHebrewDate hs).monthName,
          (parseHebrewDate hs).month, (parseHebrewDate hs).year, hs⟩
        gregorianDate := some ⟨none, none, (extractGregorianYears gs).deathYear, gs⟩
        isConsistent := true
        expectedHebrewDate := none
        expectedGregorianDate := none
        discrepancyExplanation :=
          if optTruthy (parseHebrewDate hs).year ∧
             ¬ optTruthy (extractGregorianYears gs).deathYear then some msgNoGreg
          else if ¬ optTruthy (parseHebrewDate hs).year ∧
              optTruthy (extractGregorianYears gs).deathYear then some msgNoHeb
          else none } := by
  simp only [validateDateConsistency]
  rw [if_pos h]

theorem validate_noconvert (hg : HDateToGreg) (gh : GregToHDate) (hs gs : String)
    (hy : optTruthy (parseHebrewDate hs).year = true)
    (hd : optTruthy (extractGregorianYears gs).deathYear = true)
    (hconv : hebrewToGregorian hg (jsOrNat (parseHebrewDate hs).day 15)
        (jsOrNat (parseHebrewDate hs).month 7)
        ((parseHebrewDate hs).year.getD 0) = none) :
    validateDateConsistency hg gh hs gs =
      { hebrewDate := some ⟨(parseHebrewDate hs).day, (parseHebrewDate hs).monthName,
          (parseHebrewDate hs).month, (parseHebrewDate hs).year, hs⟩
        gregorianDate := some ⟨none, none, (extractGregorianYears gs).deathYear, gs⟩
        isConsistent := true
        expectedHebrewDate := none
        expectedGregorianDate := none
        discrepancyExplanation := some msgNoConvert } := by
  simp only [validateDateConsistency]
  rw [if_neg (by simp [hy, hd]), hconv]

theorem validate_close (hg : HDateToGreg) (gh : GregToHDate) (hs gs : String)
    (g : JsDate)
    (hy : optTruthy (parseHebrewDate hs).year = true)
    (hd : optTruthy (extractGregorianYears gs).deathYear = true)
    (hconv : hebrewToGregorian hg (jsOrNat (parseHebrewDate hs).day 15)
        (jsOrNat (parseHebrewDate hs).month 7)
        ((parseHebrewDate hs).year.getD 0) = some g)
    (hdiff : (g.fullYear - ((extractGregorianYears gs).deathYear.getD 0 : Nat)).natAbs ≤ 1) :
    validateDateConsistency hg gh hs gs =
      { hebrewDate := some ⟨(parseHebrewDate hs).day, (parseHebrewDate hs).monthName,
          (parseHebrewDate hs).month, (parseHebrewDate hs).year, hs⟩
        gregorianDate := some ⟨none, none, (extractGregorianYears gs).deathYear, gs⟩
        isConsistent := true
        expectedHebrewDate := none
        expectedGregorianDate := none
        discrepancyExplanation := none } := by
  simp only [validateDateConsistency]
  rw [if_neg (by simp [hy, hd]), hconv]
  simp only [if_pos hdiff]

theorem validate_far (hg : HDateToGreg) (gh : GregToHDate) (hs gs : String)
    (g : JsDate)
    (hy : optTruthy (parseHebrewDate hs).year = true)
    (hd : optTruthy (extractGregorianYears gs).deathYear = true)
    (hconv : hebrewToGregorian hg (jsOrNat (parseHebrewDate hs).day 15)
        (jsOrNat (parseHebrewDate hs).month 7)
        ((parseHebrewDate hs).year.getD 0) = some g)
    (hdiff : ¬ (g.fullYear - ((extractGregorianYears gs).deathYear.getD 0 : Nat)).natAbs ≤ 1) :
    validateDateConsistency hg gh hs gs =
      { hebrewDate := some ⟨(parseHebrewDate hs).day, (parseHebrewDate hs).monthName,
          (parseHebrewDate hs).month, (parseHebrewDate hs).year, hs⟩
        gregorianDate := some ⟨none, none, (extractGregorianYears gs).deathYear, gs⟩
        isConsistent := false
        expectedHebrewDate :=
          match gh ⟨((extractGregorianYears gs).deathYear.getD 0 : Nat), 0, 1⟩ with
          | some parts => some (hebYearStem ++ getHebrewYearSuffix parts.year)
          | none => none
        expectedGregorianDate := some (fmtGregDate g)
        discrepancyExplanation :=
          some (mismatchMsg hs g.fullYear ((extractGregorianYears gs).deathYear.getD 0)) } := by
  simp only [validateDateConsistency]
  rw [if_neg (by simp [hy, hd]), hconv]
  simp only [if_neg hdiff]

theorem year_truthy {hs : String} {y : Nat} (h : (parseHebrewDate hs).year = some y) :
    optTruthy (parseHebrewDate hs).year = true := by
  have hpos := (parseHebrewDate_ok hs).1 y h
  rw [h]
  simp [optTruthy]
  omega

theorem death_truthy {gs : String} {d : Nat}
    (h : (extractGregorianYears gs).deathYear = some d) :
    optTruthy (extractGregorianYears gs).deathYear = true := by
  have hb := extract_death_bound h
  rw [h]
  simp [optTruthy]
  omega

theorem jsOrNat_day (hs : String) :
    jsOrNat (parseHebrewDate hs).day 15 = (parseHebrewDate hs).day.getD 15 := by
  cases hd : (parseHebrewDate hs).day with
  | none => rfl
  | some dd =>
    have hb := (parseHebrewDate_ok hs).2.1 dd hd
    simp [jsOrNat]
    omega

theorem jsOrNat_month (hs : String) :
    jsOrNat (parseHebrewDate hs).month 7 = (parseHebrewDate hs).month.getD 7 := by
  cases hm : (parseHebrewDate hs).month with
  | none => rfl
  | some mm =>
    have hb := (parseHebrewDate_ok hs).2.2 mm hm
    simp [jsOrNat]
    omega

/-- C1: for every pair of input strings, `validateDateConsistency` is a total
function returning a well-formed `DateValidationResult`; whenever the parsed
Hebrew year or the extracted Gregorian death year is absent, the result has
`isConsistent = true` with an explanation naming the missing side (none when
both are missing), and whenever both are present but `hebrewToGregorian`
returns `null` for the constructed date, the result has `isConsistent = true`
with the conversion-not-possible explanation. -/
theorem claim_C1 (hg : HDateToGreg) (gh : GregToHDate) (hs gs : String) :
    ((parseHebrewDate hs).year = none ∨ (extractGregorianYears gs).deathYear = none →
      (validateDateConsistency hg gh hs gs).isConsistent = true ∧
      (validateDateConsistency hg gh hs gs).discrepancyExplanation =
        (if (parseHebrewDate hs).year.isSome ∧ (extractGregorianYears gs).deathYear = none
         then some msgNoGreg
         else if (parseHebrewDate hs).year = none ∧
             (extractGregorianYears gs).deathYear.isSome
         then some msgNoHeb
         else none)) ∧
    (∀ y d : Nat, (parseHebrewDate hs).year = some y →
      (extractGregorianYears gs).deathYear = some d →
      hebrewToGregorian hg ((parseHebrewDate hs).day.getD 15)
        ((parseHebrewDate hs).month.getD 7) y = none →
      (validateDateConsistency hg gh hs gs).isConsistent = true ∧
      (validateDateConsistency hg gh hs gs).discrepancyExplanation = some msgNoConvert) := by
  constructor
  · intro h
    have hcond : ¬ optTruthy (parseHebrewDate hs).year ∨
        ¬ optTruthy (extractGregorianYears gs).deathYear := by
      rcases h with h | h <;> rw [h] <;> simp [optTruthy]
    rw [validate_insufficient hg gh hs gs hcond]
    refine ⟨rfl, ?_⟩
    cases hyr : (parseHebrewDate hs).year with
    | none =>
      cases hdr : (extractGregorianYears gs).deathYear with
      | none => simp [optTruthy]
      | some d =>
        have hb := extract_death_bound hdr
        simp [optTruthy]
        omega
    | some y =>
      cases hdr : (extractGregorianYears gs).deathYear with
      | none =>
        have hp := (parseHebrewDate_ok hs).1 y hyr
        simp [optTruthy]
        omega
      | some d =>
        rcases h with h | h
        · rw [hyr] at h; exact Option.noConfusion h
        · rw [hdr] at h; exact Option.noConfusion h
  · intro y d hy hd hconv
    have hyT := year_truthy hy
    have hdT := death_truthy hd
    have hconv' : hebrewToGregorian hg (jsOrNat (parseHebrewDate hs).day 15)
        (jsOrNat (parseHebrewDate hs).month 7)
        ((parseHebrewDate hs).year.getD 0) = none := by
      rw [jsOrNat_day hs, jsOrNat_month hs, hy]
      simpa using hconv
    rw [validate_noconvert hg gh hs gs hyT hdT hconv']
    exact ⟨rfl, rfl⟩

/-- Witness for C1 at empty inputs and the always-failing collaborator: both
sides are missing, so the result is consistent with no explanation. -/
theorem claim_C1_witness :
    (validateDateConsistency hgNone ghNone "" "").isConsistent = true ∧
    (validateDateConsistency hgNone ghNone "" "").discrepancyExplanation = none := by
  have h := (claim_C1 hgNone ghNone "" "").1 (Or.inl (by decide))
  refine ⟨h.1, ?_⟩
  rw [h.2]
  decide

/-- C2: whenever both a Hebrew year and a Gregorian death year are obtained
and the conversion of (parsed day or 15, parsed month or 7, the Hebrew year)
succeeds, `isConsistent` holds exactly when the converted Gregorian year is
within one year of the recorded death year; a consistent result carries no
explanation, and an inconsistent one carries the converted date as
`expectedGregorianDate` and an explanation naming the converted year and the
recorded year. -/
theorem claim_C2 (hg : HDateToGreg) (gh : GregToHDate) (hs gs : String)
    (y d : Nat) (g : JsDate)
    (hy : (parseHebrewDate hs).year = some y)
    (hd : (extractGregorianYears gs).deathYear = some d)
    (hconv : hebrewToGregorian hg ((parseHebrewDate hs).day.getD 15)
      ((parseHebrewDate hs).month.getD 7) y = some g) :
    ((validateDateConsistency hg gh hs gs).isConsistent = true ↔
      (g.fullYear - (d : Int)).natAbs ≤ 1) ∧
    ((g.fullYear - (d : Int)).natAbs ≤ 1 →
      (validateDateConsistency hg gh hs gs).discrepancyExplanation = none) ∧
    (¬ (g.fullYear - (d : Int)).natAbs ≤ 1 →
      (validateDateConsistency hg gh hs gs).expectedGregorianDate =
        some (fmtGregDate g) ∧
      (validateDateConsistency hg gh hs gs).discrepancyExplanation =
        some (mismatchMsg hs g.fullYear d)) := by
  have hyT := year_truthy hy
  have hdT := death_truthy hd
  have hgetd : (extractGregorianYears gs).deathYear.getD 0 = d := by rw [hd]; rfl
  have hconv' : hebrewToGregorian hg (jsOrNat (parseHebrewDate hs).day 15)
      (jsOrNat (parseHebrewDate hs).month 7)
      ((parseHebrewDate hs).year.getD 0) = some g := by
    rw [jsOrNat_day hs, jsOrNat_month hs, hy]
    simpa using hconv
  by_cases hdiff : (g.fullYear - (d : Int)).natAbs ≤ 1
  · have hdiff' : (g.fullYear -
        ((extractGregorianYears gs).deathYear.getD 0 : Nat)).natAbs ≤ 1 := by
      rw [hgetd]; exact hdiff
    rw [validate_close hg gh hs gs g hyT hdT hconv' hdiff']
    exact ⟨⟨fun _ => hdiff, fun _ => rfl⟩, fun _ => rfl, fun hc => absurd hdiff hc⟩
  · have hdiff' : ¬ (g.fullYear -
        ((extractGregorianYears gs).deathYear.getD 0 : Nat)).natAbs ≤ 1 := by
      rw [hgetd]; exact hdiff
    rw [validate_far hg gh hs gs g hyT hdT hconv' hdiff']
    refine ⟨⟨fun hh => absurd hh (by simp), fun hh => absurd hh hdiff⟩, fun hc => absurd hc hdiff, ?_⟩
    intro _
    exact ⟨rfl, by rw [hgetd]⟩

/-- Witness for C2: a year-only Hebrew date, a matching Gregorian year and a
collaborator converting to mid-2019 give a consistent result with no
explanation. -/
theorem claim_C2_witness :
    (validateDateConsistency hgMid2019 ghNone "תשעט" "2019").isConsistent = true ∧
    (validateDateConsistency hgMid2019 ghNone "תשעט" "2019").discrepancyExplanation = none := by
  have h := claim_C2 hgMid2019 ghNone "תשעט" "2019" 5779 2019 ⟨2019, 5, 14⟩
    (by decide) (by decide) (by decide)
  exact ⟨h.1.mpr (by decide), h.2.1 (by decide)⟩

/-- C10: although `DateValidationResult` declares both date fields nullable,
every branch of `validateDateConsistency` returns them non-null with the two
input strings preserved verbatim in `rawText`. -/
theorem claim_C10 (hg : HDateToGreg) (gh : GregToHDate) (hs gs : String) :
    ∃ hi gi, (validateDateConsistency hg gh hs gs).hebrewDate = some hi ∧
      (validateDateConsistency hg gh hs gs).gregorianDate = some gi ∧
      hi.rawText = hs ∧ gi.rawText = gs := by
  simp only [validateDateConsistency]
  split
  · exact ⟨_, _, rfl, rfl, rfl, rfl⟩
  · split
    · exact ⟨_, _, rfl, rfl, rfl, rfl⟩
    · split
      · exact ⟨_, _, rfl, rfl, rfl, rfl⟩
      · exact ⟨_, _, rfl, rfl, rfl, rfl⟩

/-- C4: the gematria decoder strips quote-like marks and whitespace, sums the
standard letter values over recognized characters (final forms valued as
their base letters), and returns `null` exactly when no letter was
recognized; in particular the four documented examples hold. -/
theorem claim_C4 :
    (∀ s : String,
      hebrewNumeralToInt s =
        (if ((cleanNumeral s.data).filterMap HEBREW_LETTER_VALUES) = [] then none
         else some ((cleanNumeral s.data).filterMap HEBREW_LETTER_VALUES).sum)) ∧
    hebrewNumeralToInt yodQuoteAleph = some 11 ∧
    hebrewNumeralToInt kafQuoteGimel = some 23 ∧
    hebrewNumeralToInt "" = none ∧
    hebrewNumeralToInt "abc" = none := by
  refine ⟨hebrewNumeralToInt_eq, ?_, ?_, ?_, ?_⟩ <;> decide

/-- C5: the extractor finds the non-overlapping boundary-delimited 19xx/20xx
matches; no match yields two `null`s, a single match becomes the death year
only, and two or more matches assign the minimum to the birth year and the
maximum to the death year; the two documented examples hold. -/
theorem claim_C5 :
    (∀ text : String,
      (scanYears none text.data = [] →
        extractGregorianYears text = ⟨none, none⟩) ∧
      (∀ y, scanYears none text.data = [y] →
        extractGregorianYears text = ⟨none, some y⟩) ∧
      (2 ≤ (scanYears none text.data).length →
        ∃ a b, extractGregorianYears text = ⟨some a, some b⟩ ∧
          a ∈ scanYears none text.data ∧ b ∈ scanYears none text.data ∧
          ∀ x ∈ scanYears none text.data, a ≤ x ∧ x ≤ b)) ∧
    extractGregorianYears "1938 - 2019" = ⟨some 1938, some 2019⟩ ∧
    extractGregorianYears "2019" = ⟨none, some 2019⟩ := by
  refine ⟨fun text => ⟨fun h => extract_empty h, fun y h => extract_single h,
    fun h2 => extract_multi h2⟩, by decide, by decide⟩

/-- Witness for C5 at a two-match input: the theorem's multi-match branch
applies and produces the minimum and maximum. -/
theorem claim_C5_witness :
    ∃ a b, extractGregorianYears "1945 2003" = ⟨some a, some b⟩ ∧
      a ∈ scanYears none ("1945 2003" : String).data ∧
      b ∈ scanYears none ("1945 2003" : String).data ∧
      ∀ x ∈ scanYears none ("1945 2003" : String).data, a ≤ x ∧ x ≤ b :=
  (claim_C5.1 "1945 2003").2.2 (by decide)

/-- C6: the month resolver tries an exact table lookup first (so both
spellings of Sivan resolve to 3) and otherwise falls back to bidirectional
substring containment, returning the value of the first matching entry in the
fixed insertion order of the table; as a pure function of the token it is
idempotent. -/
theorem claim_C6 :
    parseHebrewMonth "סיוון" = some 3 ∧ parseHebrewMonth "סיון" = some 3 ∧
    (∀ s v, s ≠ "" →
      tableGet (String.mk (jsTrim s.data)) HEBREW_MONTHS = some v →
      parseHebrewMonth s = some v) ∧
    (∀ s, s ≠ "" →
      tableGet (String.mk (jsTrim s.data)) HEBREW_MONTHS = none →
      parseHebrewMonth s =
        (HEBREW_MONTHS.find? (fun p =>
          jsIncludes p.1 (jsToLower (String.mk (jsTrim s.data))) ||
          jsIncludes (jsToLower (String.mk (jsTrim s.data))) p.1)).map Prod.snd) := by
  refine ⟨by decide, by decide, ?_, ?_⟩
  · intro s v hs hg
    unfold parseHebrewMonth
    rw [if_neg hs]
    dsimp only
    rw [hg]
  · intro s hs hg
    unfold parseHebrewMonth
    rw [if_neg hs]
    dsimp only
    rw [hg]
    exact monthScan_eq_find _ _

/-- Witness for C6: a truncated OCR token resolves through the fallback to
the first containing table entry. -/
theorem claim_C6_witness : parseHebrewMonth "סיו" = some 3 := by
  have h := claim_C6.2.2.2 "סיו" (by decide) (by decide)
  rw [h]
  decide

theorem parseStep_skip {t : String} (h : isSkipTok t = true) (st : ParsedHebrewDate) :
    parseStep st t = st := by
  unfold parseStep
  rw [if_pos h]

theorem parseStep_eq_claimClassify {t : String} (h : isSkipTok t = false)
    (st : ParsedHebrewDate) : parseStep st t = claimClassify st t := by
  unfold parseStep claimClassify
  rw [if_neg (by simp [h])]
  cases hm : parseHebrewMonth t with
  | some m => rfl
  | none =>
    cases hn : hebrewNumeralToInt t with
    | none => rfl
    | some n =>
      dsimp only
      have hiff : (n > 31 ∨ jsIncludes t "ת" = true ∨ jsIncludes t "ש" = true) ↔
          (n > 31 ∨ 'ת' ∈ t.data ∨ 'ש' ∈ t.data) := by
        rw [jsIncludes_tav, jsIncludes_shin]
      by_cases hc : n > 31 ∨ 'ת' ∈ t.data ∨ 'ש' ∈ t.data
      · rw [if_pos (hiff.mpr hc), if_pos hc]
      · rw [if_neg (fun hx => hc (hiff.mp hx)), if_neg hc]

theorem foldl_parseStep_eq_filtered :
    ∀ (l : List String) (st : ParsedHebrewDate),
      l.foldl parseStep st =
        (l.filter (fun t => ¬ isSkipTok t)).foldl claimClassify st := by
  intro l
  induction l with
  | nil => intro st; rfl
  | cons t rest ih =>
    intro st
    cases hsk : isSkipTok t with
    | true =>
      rw [List.foldl_cons, parseStep_skip hsk,
        List.filter_cons_of_neg (by simp [hsk]), ih]
    | false =>
      rw [List.foldl_cons, parseStep_eq_claimClassify hsk,
        List.filter_cons_of_pos (by simp [hsk]), List.foldl_cons, ih]

/-- C3: the parser classifies each non-prefix token by trying the month table
first and then the year/day numeral heuristic exactly as the specification
words it (year when the value exceeds 31 or the token contains tav or shin,
with sub-1000 years normalized by adding 5000; day when the value lies in
1..30 and was not claimed as a year); unmatched tokens are ignored, the
function is total, and each of day, month and year can independently be
absent, as the eight concrete phrases show. -/
theorem claim_C3 :
    (∀ dateStr : String,
      parseHebrewDate dateStr =
        ((tokensOf dateStr).filter (fun t => ¬ isSkipTok t)).foldl
          claimClassify emptyParsed) ∧
    parseHebrewDate "" = ⟨none, none, none, none⟩ ∧
    parseHebrewDate "יא" = ⟨some 11, none, none, none⟩ ∧
    parseHebrewDate "ניסן" = ⟨none, some 1, some "ניסן", none⟩ ∧
    parseHebrewDate "תשעט" = ⟨none, none, none, some 5779⟩ ∧
    parseHebrewDate "יא ניסן" = ⟨some 11, some 1, some "ניסן", none⟩ ∧
    parseHebrewDate "יא תשעט" = ⟨some 11, none, none, some 5779⟩ ∧
    parseHebrewDate "ניסן תשעט" = ⟨none, some 1, some "ניסן", some 5779⟩ ∧
    parseHebrewDate "יא ניסן תשעט" = ⟨some 11, some 1, some "ניסן", some 5779⟩ := by
  refine ⟨?_, by decide, by decide, by decide, by decide, by decide, by decide,
    by decide, by decide⟩
  intro dateStr
  unfold parseHebrewDate
  split
  · rename_i hempty
    subst hempty
    rfl
  · exact foldl_parseStep_eq_filtered _ _

/-- Counterexample to C7: with an entry carrying no date text, the output of
`validateAllDates` is shorter than the input and its first element is the
validation of the second entry, not of the first, so result[i] does not
correspond to memorial[i]. -/
theorem claim_C7_counterexample :
    (validateAllDates hgNone ghNone
      [⟨none, none, none⟩, ⟨some "תשעט", some "2019", none⟩]).length ≠ 2 ∧
    (validateAllDates hgNone ghNone
      [⟨none, none, none⟩, ⟨some "תשעט", some "2019", none⟩])[0]? =
      some (validateDateConsistency hgNone ghNone "תשעט" "2019") ∧
    validateDateConsistency hgNone ghNone "תשעט" "2019" ≠
      validateDateConsistency hgNone ghNone "" "" := by
  refine ⟨by decide, by decide, by decide⟩

/-- C7 amended: the output of `validateAllDates` is order-preserving over the
entries that survive its date-text filter: the i-th result is the validation
of the i-th surviving entry (with the empty string for missing fields). -/
theorem claim_C7_amended (hg : HDateToGreg) (gh : GregToHDate)
    (memorials : List MemorialInput) (i : Nat) :
    (validateAllDates hg gh memorials)[i]? =
      ((memorials.filter hasDateText)[i]?).map fun m =>
        validateDateConsistency hg gh (orBlank m.hebrewDate)
          (orBlank m.gregorianYears) := by
  unfold validateAllDates
  rw [List.getElem?_map]

/-- C9: `validateAllDates` drops every entry whose two date fields are both
absent or empty, so a list containing one is validated to a strictly shorter
list, and the surviving entries are validated in input order with the empty
string substituted for missing fields. -/
theorem claim_C9 (hg : HDateToGreg) (gh : GregToHDate)
    (memorials : List MemorialInput)
    (h : ∃ m ∈ memorials, hasDateText m = false) :
    (validateAllDates hg gh memorials).length < memorials.length ∧
    validateAllDates hg gh memorials =
      (memorials.filter hasDateText).map fun m =>
        validateDateConsistency hg gh (orBlank m.hebrewDate)
          (orBlank m.gregorianYears) := by
  refine ⟨?_, rfl⟩
  unfold validateAllDates
  rw [List.length_map]
  obtain ⟨m, hm, hfalse⟩ := h
  refine List.length_filter_lt_length_iff_exists.mpr ?_
  exact ⟨m, hm, by simp [hfalse]⟩

/-- Witness for C9: a single entry with no date text yields an empty output,
strictly shorter than the input list. -/
theorem claim_C9_witness :
    (validateAllDates hgNone ghNone [⟨none, some "", none⟩]).length < 1 ∧
    validateAllDates hgNone ghNone [⟨none, some "", none⟩] =
      (([⟨none, some "", none⟩] : List MemorialInput).filter hasDateText).map fun m =>
        validateDateConsistency hgNone ghNone (orBlank m.hebrewDate)
          (orBlank m.gregorianYears) :=
  claim_C9 hgNone ghNone [⟨none, some "", none⟩]
    ⟨⟨none, some "", none⟩, by decide, by decide⟩

theorem splitWsAux_nonws {xs : List Char}
    (hxs : ∀ c ∈ xs, jsWhitespace c = false) :
    ∀ (l cur : List Char), splitWsAux (xs ++ l) cur = splitWsAux l (xs.reverse ++ cur) := by
  induction xs with
  | nil => intro l cur; simp
  | cons c rest ih =>
    intro l cur
    have hc : jsWhitespace c = false := hxs c (List.mem_cons_self _ _)
    rw [List.cons_append]
    show splitWsAux (c :: (rest ++ l)) cur = _
    rw [splitWsAux, if_neg (by simp [hc])]
    rw [ih (fun x hx => hxs x (List.mem_cons_of_mem _ hx)) l (c :: cur)]
    congr 1
    simp

theorem splitWsAux_ws {w : Char} (hw : jsWhitespace w = true) (b : List Char) :
    ∀ (a cur : List Char),
      splitWsAux (a ++ w :: b) cur = splitWsAux a cur ++ splitWs b := by
  intro a
  induction a with
  | nil =>
    intro cur
    rw [List.nil_append]
    conv_lhs => rw [splitWsAux]
    rw [if_pos hw]
    cases cur with
    | nil => simp [splitWsAux, splitWs]
    | cons x xs => simp [splitWsAux, splitWs]
  | cons c a' ih =>
    intro cur
    rw [List.cons_append]
    conv_lhs => rw [splitWsAux]
    cases hc : jsWhitespace c with
    | true =>
      rw [if_pos rfl]
      cases cur with
      | nil =>
        rw [if_pos rfl, ih []]
        conv_rhs => rw [splitWsAux]
        rw [if_pos hc, if_pos rfl]
      | cons x xs =>
        rw [if_neg (by simp), ih []]
        conv_rhs => rw [splitWsAux]
        rw [if_pos hc, if_neg (by simp)]
        simp
    | false =>
      rw [if_neg (by simp [hc]), ih (c :: cur)]
      conv_rhs => rw [splitWsAux]
      rw [if_neg (by simp [hc])]

theorem splitWs_split {w : Char} (hw : jsWhitespace w = true) (a b : List Char) :
    splitWs (a ++ w :: b) = splitWs a ++ splitWs b :=
  splitWsAux_ws hw b a []

theorem splitWs_single {xs : List Char} (hne : xs ≠ [])
    (hxs : ∀ c ∈ xs, jsWhitespace c = false) : splitWs xs = [xs] := by
  unfold splitWs
  have h := splitWsAux_nonws hxs [] []
  rw [List.append_nil, List.append_nil] at h
  rw [h, splitWsAux, if_neg (by simpa using hne)]
  simp

theorem tokensOf_day_month {d : String} (m : String) (hdne : d.data ≠ [])
    (hws : ∀ c ∈ d.data, jsWhitespace c = false) :
    tokensOf (d ++ " " ++ m) = d :: tokensOf m := by
  have hdata : (d ++ " " ++ m).data = d.data ++ ' ' :: m.data := by
    show (d.data ++ [' ']) ++ m.data = _
    rw [List.append_assoc]
    rfl
  unfold tokensOf
  rw [hdata, splitWs_split (by decide) d.data m.data, splitWs_single hdne hws]
  rfl

theorem tokensOf_month_day {d : String} (m : String) (hdne : d.data ≠ [])
    (hws : ∀ c ∈ d.data, jsWhitespace c = false) :
    tokensOf (m ++ " " ++ d) = tokensOf m ++ [d] := by
  have hdata : (m ++ " " ++ d).data = m.data ++ ' ' :: d.data := by
    show (m.data ++ [' ']) ++ d.data = _
    rw [List.append_assoc]
    rfl
  unfold tokensOf
  rw [hdata, splitWs_split (by decide) m.data d.data, splitWs_single hdne hws,
    List.map_append]
  rfl

theorem keyToks : ∀ p ∈ HEBREW_MONTHS,
    (tokensOf p.1).all skipOrMonth = true ∧ (tokensOf p.1).any monthTok = true := by
  decide

theorem parseStep_month {t : String} {k : Nat} (hsk : isSkipTok t = false)
    (hm : parseHebrewMonth t = some k) (st : ParsedHebrewDate) :
    parseStep st t = { st with month := some k, monthName := some t } := by
  unfold parseStep
  rw [if_neg (by simp [hsk]), hm]

theorem foldl_allskip {l : List String} (h : ∀ t ∈ l, isSkipTok t = true) :
    ∀ st : ParsedHebrewDate, l.foldl parseStep st = st := by
  induction l with
  | nil => intro st; rfl
  | cons t rest ih =>
    intro st
    rw [List.foldl_cons, parseStep_skip (h t (List.mem_cons_self _ _)) st]
    exact ih (fun x hx => h x (List.mem_cons_of_mem _ hx)) st

theorem foldl_month_det :
    ∀ l : List String, (∀ t ∈ l, skipOrMonth t = true) → l.any monthTok = true →
      ∃ mk nm, ∀ st : ParsedHebrewDate,
        l.foldl parseStep st = { st with month := some mk, monthName := some nm } := by
  intro l
  induction l with
  | nil => intro _ hany; simp at hany
  | cons t rest ih =>
    intro hall hany
    cases hsk : isSkipTok t with
    | true =>
      have hrest : rest.any monthTok = true := by
        rcases List.any_eq_true.mp hany with ⟨x, hx, hxT⟩
        rcases List.mem_cons.mp hx with rfl | hx'
        · exfalso
          unfold monthTok at hxT
          rw [hsk] at hxT
          simp at hxT
        · exact List.any_eq_true.mpr ⟨x, hx', hxT⟩
      obtain ⟨mk, nm, hF⟩ := ih (fun x hx => hall x (List.mem_cons_of_mem _ hx)) hrest
      exact ⟨mk, nm, fun st => by rw [List.foldl_cons, parseStep_skip hsk, hF]⟩
    | false =>
      have hsm := hall t (List.mem_cons_self _ _)
      unfold skipOrMonth at hsm
      rw [hsk] at hsm
      simp at hsm
      obtain ⟨k, hk⟩ := Option.isSome_iff_exists.mp hsm
      by_cases hrest : rest.any monthTok = true
      · obtain ⟨mk, nm, hF⟩ := ih (fun x hx => hall x (List.mem_cons_of_mem _ hx)) hrest
        refine ⟨mk, nm, fun st => ?_⟩
        rw [List.foldl_cons, parseStep_month hsk hk, hF]
      · have hallskip : ∀ x ∈ rest, isSkipTok x = true := by
          intro x hx
          have hx2 := hall x (List.mem_cons_of_mem _ hx)
          unfold skipOrMonth at hx2
          cases hskx : isSkipTok x with
          | true => rfl
          | false =>
            exfalso
            rw [hskx] at hx2
            simp at hx2
            apply hrest
            refine List.any_eq_true.mpr ⟨x, hx, ?_⟩
            unfold monthTok
            rw [hskx]
            simpa using hx2
        refine ⟨k, t, fun st => ?_⟩
        rw [List.foldl_cons, parseStep_month hsk hk, foldl_allskip hallskip]

theorem parseStep_day {t : String} {n : Nat} (hnm : parseHebrewMonth t = none)
    (hdec : hebrewNumeralToInt t = some n) (h1 : 1 ≤ n) (h30 : n ≤ 30)
    (st : ParsedHebrewDate) : parseStep st t = { st with day := some n } := by
  have hsk : isSkipTok t = false := by
    unfold isSkipTok
    by_cases hb : t = "ב"
    · exfalso
      rw [hb] at hnm
      exact Option.noConfusion ((show parseHebrewMonth "ב" = some 5 by decide) ▸ hnm)
    · by_cases hl : t = "ל"
      · exfalso
        rw [hl] at hnm
        exact Option.noConfusion ((show parseHebrewMonth "ל" = some 6 by decide) ▸ hnm)
      · by_cases hn : t = nifTok
        · exfalso
          rw [hn] at hdec
          have h130 : (130 : Nat) = n := by
            have := (show hebrewNumeralToInt nifTok = some 130 by decide) ▸ hdec
            simpa using this
          omega
        · simp [hb, hl, hn]
  have htav : ¬ ('ת' ∈ t.data) := by
    intro hmemc
    have hge := decode_ge_letter hdec hmemc
      (show HEBREW_LETTER_VALUES 'ת' = some 400 by decide)
    omega
  have hshin : ¬ ('ש' ∈ t.data) := by
    intro hmemc
    have hge := decode_ge_letter hdec hmemc
      (show HEBREW_LETTER_VALUES 'ש' = some 300 by decide)
    omega
  unfold parseStep
  rw [if_neg (by simp [hsk]), hnm, hdec]
  dsimp only
  rw [if_neg ?hcond, if_pos ⟨h1, h30⟩]
  case hcond =>
    rintro (hgt | hinc | hinc)
    · omega
    · exact htav (jsIncludes_tav.mp hinc)
    · exact hshin (jsIncludes_shin.mp hinc)

/-- Counterexample to C8 as stated: the token aleph-bet decodes to 3 (a valid
day value) but also fuzzy-matches the month table (it is the month Av), so
the phrase gives month Tishrei in one order and month Av in the other. -/
theorem claim_C8_counterexample :
    hebrewNumeralToInt "אב" = some 3 ∧ (1 ≤ 3 ∧ 3 ≤ 30) ∧
    ("תשרי", 7) ∈ HEBREW_MONTHS ∧
    (parseHebrewDate ("אב" ++ " " ++ "תשרי")).month ≠
      (parseHebrewDate ("תשרי" ++ " " ++ "אב")).month := by
  refine ⟨by decide, by decide, by decide, by decide⟩

/-- C8 amended: for every whitespace-free day token that does not resolve as
a month (exact or fuzzy) and decodes to 1..30, and every month token in the
canonical table, the parser recovers the same day and month pair from the
two-token phrase regardless of token order. -/
theorem claim_C8_amended (d m : String) (n k : Nat)
    (hne : d ≠ "") (hws : ∀ c ∈ d.data, jsWhitespace c = false)
    (hnm : parseHebrewMonth d = none)
    (hdec : hebrewNumeralToInt d = some n) (h1 : 1 ≤ n) (h30 : n ≤ 30)
    (hmem : (m, k) ∈ HEBREW_MONTHS) :
    ∃ mk, (parseHebrewDate (d ++ " " ++ m)).day = some n ∧
      (parseHebrewDate (m ++ " " ++ d)).day = some n ∧
      (parseHebrewDate (d ++ " " ++ m)).month = some mk ∧
      (parseHebrewDate (m ++ " " ++ d)).month = some mk := by
  have hdne : d.data ≠ [] := by
    intro hx
    apply hne
    have : d = String.mk d.data := rfl
    rw [hx] at this
    exact this
  have ht1 := tokensOf_day_month m hdne hws
  have ht2 := tokensOf_month_day m hdne hws
  have hkey := keyToks (m, k) hmem
  obtain ⟨mk, nm, hF⟩ := foldl_month_det (tokensOf m)
    (fun t ht => List.all_eq_true.mp hkey.1 t ht) hkey.2
  have hdata1 : (d ++ " " ++ m).data = d.data ++ ' ' :: m.data := by
    show (d.data ++ [' ']) ++ m.data = _
    rw [List.append_assoc]
    rfl
  have hdata2 : (m ++ " " ++ d).data = m.data ++ ' ' :: d.data := by
    show (m.data ++ [' ']) ++ d.data = _
    rw [List.append_assoc]
    rfl
  have hs1 : d ++ " " ++ m ≠ "" := by
    intro hcontra
    have hd := congrArg String.data hcontra
    rw [hdata1] at hd
    simp at hd
  have hs2 : m ++ " " ++ d ≠ "" := by
    intro hcontra
    have hd := congrArg String.data hcontra
    rw [hdata2] at hd
    rcases List.append_eq_nil.mp hd with ⟨_, hcons⟩
    exact List.cons_ne_nil _ _ hcons
  have e1 : parseHebrewDate (d ++ " " ++ m) =
      { { emptyParsed with day := some n } with
        month := some mk, monthName := some nm } := by
    unfold parseHebrewDate
    rw [if_neg hs1, ht1, List.foldl_cons, parseStep_day hnm hdec h1 h30, hF]
  have e2 : parseHebrewDate (m ++ " " ++ d) =
      { { emptyParsed with month := some mk, monthName := some nm } with
        day := some n } := by
    unfold parseHebrewDate
    rw [if_neg hs2, ht2, List.foldl_append, hF emptyParsed]
    show parseStep _ d = _
    rw [parseStep_day hnm hdec h1 h30]
  exact ⟨mk, by rw [e1], by rw [e2], by rw [e1], by rw [e2]⟩

/-- Witness for the amended C8 at the day token yod-aleph (11) and the month
token Tishrei. -/
theorem claim_C8_witness :
    ∃ mk, (parseHebrewDate ("יא" ++ " " ++ "תשרי")).day = some 11 ∧
      (parseHebrewDate ("תשרי" ++ " " ++ "יא")).day = some 11 ∧
      (parseHebrewDate ("יא" ++ " " ++ "תשרי")).month = some mk ∧
      (parseHebrewDate ("תשרי" ++ " " ++ "יא")).month = some mk :=
  claim_C8_amended "יא" "תשרי" 11 7 (by decide) (by decide) (by decide)
    (by decide) (by decide) (by decide) (by decide)
